import Mathlib

/-!
Shallow embedding of `update_data.py` (OpenNews/schedule-data-loader).

The script is a linear ETL pipeline: fetch rows from a Google spreadsheet,
normalize them (`transform_data`), serialize to JSON bytes (`make_json`),
and create/update a file in a GitHub repository (`commit_json`).

Modelling conventions:
* byte strings (Python 2 `str`) are `List UInt8`; text (`unicode`) is `String`;
  `encode` / `decode` with the `utf-8` codec are modelled by an executable
  UTF-8 codec (`strBytes`, `utf8Decode`), with decoding failure as `none`
  (a raised `UnicodeDecodeError` in Python);
* the remote repository state is a map from branch name to the optional file
  at the configured path; every GitHub API call made is recorded in a trace,
  and an environment `GhEnv` decides which calls raise (network failures,
  stale-sha rejections) — a raised exception is an `Option String` error;
* module-level configuration constants are gathered into explicit
  configuration structures passed to the functions that read them.
-/

/-- Python 2 byte strings. -/
abbrev Bytes := List UInt8

/-- Is `b` a UTF-8 continuation byte (`0x80 ≤ b < 0xC0`)? -/
def contByte (b : UInt8) : Bool := 0x80 ≤ b.toNat && b.toNat < 0xC0

/-- UTF-8 decoding of a byte sequence into code points, with full validation
(rejects stray continuation bytes, overlong forms, surrogates and
out-of-range values), mirroring Python's `bytes.decode` with the
strict `utf-8` codec. -/
def utf8DecodeChars : List UInt8 → Option (List Char)
  | [] => some []
  | b0 :: bs =>
    if b0.toNat < 0x80 then
      (utf8DecodeChars bs).map (fun cs => Char.ofNat b0.toNat :: cs)
    else if b0.toNat < 0xC2 then
      none
    else if b0.toNat < 0xE0 then
      match bs with
      | b1 :: bs2 =>
        if contByte b1 then
          (utf8DecodeChars bs2).map
            (fun cs => Char.ofNat ((b0.toNat - 0xC0) * 0x40 + (b1.toNat - 0x80)) :: cs)
        else none
      | [] => none
    else if b0.toNat < 0xF0 then
      match bs with
      | b1 :: b2 :: bs3 =>
        let n := (b0.toNat - 0xE0) * 0x1000 + (b1.toNat - 0x80) * 0x40 + (b2.toNat - 0x80)
        if contByte b1 && contByte b2 && decide (0x800 ≤ n) &&
            !(decide (0xD800 ≤ n) && decide (n < 0xE000)) then
          (utf8DecodeChars bs3).map (fun cs => Char.ofNat n :: cs)
        else none
      | _ => none
    else if b0.toNat < 0xF5 then
      match bs with
      | b1 :: b2 :: b3 :: bs4 =>
        let n := (b0.toNat - 0xF0) * 0x40000 + (b1.toNat - 0x80) * 0x1000 +
          (b2.toNat - 0x80) * 0x40 + (b3.toNat - 0x80)
        if contByte b1 && contByte b2 && contByte b3 &&
            decide (0x10000 ≤ n) && decide (n ≤ 0x10FFFF) then
          (utf8DecodeChars bs4).map (fun cs => Char.ofNat n :: cs)
        else none
      | _ => none
    else none

/-- `bytes.decode(given, 'utf-8')` — `none` models a raised `UnicodeDecodeError`. -/
def utf8Decode (bs : Bytes) : Option String :=
  (utf8DecodeChars bs).map List.asString

/-- UTF-8 encoding of one code point. -/
def utf8EncodeChar (c : Char) : List UInt8 :=
  let n := c.toNat
  if n < 0x80 then [UInt8.ofNat n]
  else if n < 0x800 then
    [UInt8.ofNat (0xC0 + n / 0x40), UInt8.ofNat (0x80 + n % 0x40)]
  else if n < 0x10000 then
    [UInt8.ofNat (0xE0 + n / 0x1000), UInt8.ofNat (0x80 + n / 0x40 % 0x40),
     UInt8.ofNat (0x80 + n % 0x40)]
  else
    [UInt8.ofNat (0xF0 + n / 0x40000), UInt8.ofNat (0x80 + n / 0x1000 % 0x40),
     UInt8.ofNat (0x80 + n / 0x40 % 0x40), UInt8.ofNat (0x80 + n % 0x40)]

/-- `text.encode('utf-8')`. -/
def strBytes (s : String) : Bytes := s.data.flatMap utf8EncodeChar

/-- A spreadsheet cell value as returned by `get_all_records`: a string or a
number (heterogeneous Python values that `transform_data` coerces to text). -/
inductive CellValue where
  | s (v : String)
  | n (v : Int)
deriving DecidableEq

/-- Python's `unicode(v)` coercion on a cell value. -/
def unicode : CellValue → String
  | .s v => v
  | .n v => toString v

/-- One spreadsheet row: a mapping from column name to cell value
(a Python dict, keys unique). -/
abbrev Record := List (String × CellValue)

/-- A normalized record after `transform_data`: every value a string. -/
abbrev OutRecord := List (String × String)

/-- The dict comprehension in `_transform_response_item`:
`{k: unicode(v) for k, v in item.iteritems() if k}` — keep the truthy
(non-empty) keys, coerce every value to text. -/
def normalizeItem (item : Record) : OutRecord :=
  (item.filter (fun kv => kv.1 != "")).map (fun kv => (kv.1, unicode kv.2))

/-- `_transform_response_item(item, skip=False)`: normalize the record, and
return `None` instead when the `skip` flag was triggered. No example filter
is active, so `skip` keeps its argument value (default `False`). -/
def transform_response_item (item : Record) (skip : Bool) : Option OutRecord :=
  let transformed := normalizeItem item
  if skip then none else some transformed

/-- Python truthiness of an optional dict: `None` and the empty dict are
falsy — this is the predicate applied by `filter(None, ...)`. -/
def pyTruthy : Option OutRecord → Bool
  | none => false
  | some r => !r.isEmpty

/-- `transform_data(data)`:
`filter(None, [_transform_response_item(item) for item in data])`. -/
def transform_data (data : List Record) : List OutRecord :=
  ((data.map (fun item => transform_response_item item false)).filter pyTruthy).filterMap id

/-- A hexadecimal digit character, lower case. -/
def hexDigit (n : Nat) : Char :=
  if n < 10 then Char.ofNat (48 + n) else Char.ofNat (87 + n)

/-- Four-digit lower-case hexadecimal rendering, as in `'\u%04x'`. -/
def hex4 (n : Nat) : String :=
  List.asString [hexDigit (n / 4096 % 16), hexDigit (n / 256 % 16),
    hexDigit (n / 16 % 16), hexDigit (n % 16)]

/-- JSON string escaping as done by `json.dumps(..., ensure_ascii=False)`:
quote, backslash and control characters are escaped; everything else,
non-ASCII included, is kept literally. -/
def escapeChar (c : Char) : String :=
  if c = '"' then "\\\""
  else if c = '\\' then "\\\\"
  else if c = '\n' then "\\n"
  else if c = '\r' then "\\r"
  else if c = '\t' then "\\t"
  else if c = '\x08' then "\\b"
  else if c = '\x0c' then "\\f"
  else if c.toNat < 0x20 then "\\u" ++ hex4 c.toNat
  else String.singleton c

/-- A JSON string literal for `s`. -/
def encodeJsonString (s : String) : String :=
  "\"" ++ String.join (s.data.map escapeChar) ++ "\""

/-- Executable lexicographic comparison of character lists (code-point
order), the string comparison Python's `sorted` uses. -/
def strLeList : List Char → List Char → Bool
  | [], _ => true
  | _ :: _, [] => false
  | a :: as, b :: bs =>
    if a < b then true else if b < a then false else strLeList as bs

/-- Executable `a <= b` on strings, lexicographic in code points. -/
def strLeb (a b : String) : Bool := strLeList a.data b.data

/-- Ordering of record entries by key, the comparison `sort_keys=True` uses
(Python sorts the items of each dict by key). -/
def keyLe (a b : String × String) : Prop := strLeb a.1 b.1 = true

instance : DecidableRel keyLe := fun a b => inferInstanceAs (Decidable (_ = true))

/-- The entries of a record in the order `json.dumps(..., sort_keys=True)`
emits them: stably sorted by key in ascending lexicographic order. -/
def sortEntries (r : OutRecord) : OutRecord := List.insertionSort keyLe r

/-- One record object rendered at nesting level 1, exactly as Python 2's
`json.dumps(data, sort_keys=True, indent=4, ensure_ascii=False)` renders it:
entries indented by 8 spaces, separated by the Python 2 item separator
`", "` followed by a newline, closing brace indented by 4 spaces. -/
def serializeRecord (r : OutRecord) : String :=
  if r.isEmpty then "\x7b\x7d"
  else
    "\x7b\n" ++
      String.intercalate ", \n"
        ((sortEntries r).map
          (fun kv => "        " ++ encodeJsonString kv.1 ++ ": " ++ encodeJsonString kv.2)) ++
      "\n    \x7d"

/-- `json.dumps(data, sort_keys=True, indent=4, ensure_ascii=False)` for the
whole dataset: a JSON array of the record objects, each indented by
4 spaces. -/
def make_json_text (data : List OutRecord) : String :=
  if data.isEmpty then "[]"
  else
    "[\n" ++
      String.intercalate ", \n" (data.map (fun r => "    " ++ serializeRecord r)) ++
      "\n]"

/-- The local file system, mapping file name to text content. -/
def FS := String → Option String

/-- `io.open(filename, 'w').write(text)`: a full overwrite of the file. -/
def fsWrite (fs : FS) (name content : String) : FS :=
  fun x => if x = name then some content else fs x

/-- `make_json(data, store_locally, filename)` over an explicit local file
system: serialize the dataset, optionally overwrite the local file with the
text, and return the text encoded as UTF-8 bytes together with the resulting
file system. -/
def make_json (data : List OutRecord) (store_locally : Bool) (filename : String)
    (fs : FS) : Bytes × FS :=
  let json_out := make_json_text data
  (strBytes json_out,
    if store_locally then fsWrite fs filename json_out else fs)

/-- One worksheet of the spreadsheet: its title and the rows
`get_all_records(empty2zero=False)` returns. -/
structure Worksheet where
  title : String
  records : List Record

/-- The spreadsheet opened by `open_google_spreadsheet`: its worksheets in
listing order. -/
structure Spreadsheet where
  worksheets : List Worksheet

/-- The module-level configuration constants read by `fetch_data`. -/
structure Config where
  GOOGLE_SPREADSHEET_SHEETNAME : String
  WORKSHEETS_TO_SKIP : List String

/-- `fetch_data(multiple_sheets, worksheets_to_skip)`. Single-sheet mode
resolves a named worksheet (`spreadsheet.worksheet`, raising when absent) or
the first worksheet (`get_worksheet(0)`, yielding `None` and hence an
`AttributeError` when the spreadsheet has no worksheet). Multi-sheet mode
keeps every worksheet whose title is not in the module constant
`WORKSHEETS_TO_SKIP` — the `worksheets_to_skip` parameter is not read — and
concatenates their rows in listing order. -/
def fetch_data (cfg : Config) (ss : Spreadsheet) (multiple_sheets : Bool)
    (worksheets_to_skip : List String) : Except String (List Record) :=
  if multiple_sheets = false then
    if cfg.GOOGLE_SPREADSHEET_SHEETNAME != "" then
      match ss.worksheets.find? (fun w => w.title == cfg.GOOGLE_SPREADSHEET_SHEETNAME) with
      | some w => Except.ok w.records
      | none => Except.error "WorksheetNotFound"
    else
      match ss.worksheets.head? with
      | some w => Except.ok w.records
      | none => Except.error "AttributeError"
  else
    Except.ok
      ((ss.worksheets.filter (fun sheet => !(cfg.WORKSHEETS_TO_SKIP.contains sheet.title))).flatMap
        Worksheet.records)

/-- The `GITHUB_CONFIG` constants `commit_json` reads. -/
structure GithubConfig where
  TARGET_FILE : String
  TARGET_BRANCHES : List String

/-- The remote file github3 reports at the target path of a branch:
`contents.sha` and `contents.decoded` (the raw bytes of the blob). -/
structure RemoteFile where
  sha : String
  decoded : Bytes
deriving DecidableEq

/-- Remote repository state: the optional file at the configured path, per
branch. -/
def RepoState := String → Option RemoteFile

/-- Replace the file of one branch. -/
def setBranch (st : RepoState) (b : String) (f : RemoteFile) : RepoState :=
  fun x => if x = b then some f else st x

/-- One GitHub API call issued by `commit_json`. -/
inductive GhCall where
  | look (branch path : String)
  | create (branch path : String) (content : Bytes)
  | update (branch path : String) (content : Bytes) (sha : String)
deriving DecidableEq

/-- Is this call a read-only contents lookup? -/
def GhCall.isLook : GhCall → Bool
  | .look _ _ => true
  | _ => false

/-- The environment a run executes in: which API calls succeed (`ok c =
false` models a raised exception — a network failure, or GitHub rejecting
an update whose sha precondition has gone stale), and which blob sha the
service assigns to newly written content. -/
structure GhEnv where
  ok : GhCall → Bool
  newSha : Bytes → String

/-- The body of `commit_json`'s loop for a single branch: look the file up;
when `commit` is disabled, stop there (dry run); otherwise create the file
when absent, and when present compare the UTF-8 decoded texts and update
with the looked-up sha only when they differ. The result is the new remote
state, the trace of API calls issued, and the raised exception if any. -/
def commitBranch (cfg : GithubConfig) (env : GhEnv) (data : Bytes) (commit : Bool)
    (st : RepoState) (branch : String) : RepoState × List GhCall × Option String :=
  if env.ok (GhCall.look branch cfg.TARGET_FILE) then
    if commit then
      match st branch with
      | none =>
        if env.ok (GhCall.create branch cfg.TARGET_FILE data) then
          (setBranch st branch (RemoteFile.mk (env.newSha data) data),
           [GhCall.look branch cfg.TARGET_FILE, GhCall.create branch cfg.TARGET_FILE data], none)
        else (st, [GhCall.look branch cfg.TARGET_FILE, GhCall.create branch cfg.TARGET_FILE data],
              some "create raised")
      | some f =>
        match utf8Decode data, utf8Decode f.decoded with
        | some dnew, some dold =>
          if dnew = dold then (st, [GhCall.look branch cfg.TARGET_FILE], none)
          else
            if env.ok (GhCall.update branch cfg.TARGET_FILE data f.sha) then
              (setBranch st branch (RemoteFile.mk (env.newSha data) data),
               [GhCall.look branch cfg.TARGET_FILE,
                GhCall.update branch cfg.TARGET_FILE data f.sha], none)
            else (st, [GhCall.look branch cfg.TARGET_FILE,
                       GhCall.update branch cfg.TARGET_FILE data f.sha], some "update raised")
        | _, _ => (st, [GhCall.look branch cfg.TARGET_FILE], some "UnicodeDecodeError")
    else (st, [GhCall.look branch cfg.TARGET_FILE], none)
  else (st, [GhCall.look branch cfg.TARGET_FILE], some "lookup raised")

/-- The `for branch in TARGET_BRANCHES` loop: branches are processed in
order; an exception raised while processing a branch propagates at once,
ending the loop. -/
def commitBranches (cfg : GithubConfig) (env : GhEnv) (data : Bytes) (commit : Bool) :
    List String → RepoState → RepoState × List GhCall × Option String
  | [], st => (st, [], none)
  | b :: rest, st =>
    match commitBranch cfg env data commit st b with
    | (st1, calls1, some e) => (st1, calls1, some e)
    | (st1, calls1, none) =>
      match commitBranches cfg env data commit rest st1 with
      | (st2, calls2, err) => (st2, calls1 ++ calls2, err)

/-- `commit_json(data, target_config, commit)`: process every configured
target branch. -/
def commit_json (cfg : GithubConfig) (env : GhEnv) (data : Bytes) (commit : Bool)
    (st : RepoState) : RepoState × List GhCall × Option String :=
  commitBranches cfg env data commit cfg.TARGET_BRANCHES st

/-! ### Theorems -/

theorem strLeList_eq_true_iff (x y : List Char) :
    strLeList x y = true ↔ ¬ List.Lex (· < ·) y x := by
  induction x generalizing y with
  | nil =>
    simp [strLeList, List.Lex.not_nil_right]
  | cons a as ih =>
    cases y with
    | nil =>
      simp only [strLeList, Bool.false_eq_true, false_iff, not_not]
      exact List.Lex.nil
    | cons b bs =>
      by_cases hab : a < b
      · simp only [strLeList, if_pos hab, true_iff]
        intro hlex
        cases hlex with
        | cons h => exact lt_irrefl _ hab
        | rel h => exact absurd h (lt_asymm hab)
      · by_cases hba : b < a
        · simp only [strLeList, if_neg hab, if_pos hba, Bool.false_eq_true, false_iff, not_not]
          exact List.Lex.rel hba
        · obtain rfl : a = b := le_antisymm (not_lt.mp hba) (not_lt.mp hab)
          simp only [strLeList, if_neg hab, if_neg hba]
          rw [ih bs]
          exact (not_congr List.Lex.cons_iff).symm

theorem strLeb_iff (a b : String) : strLeb a b = true ↔ a ≤ b := by
  rw [String.le_iff_toList_le, ← not_lt]
  exact strLeList_eq_true_iff a.data b.data

theorem keyLe_total : ∀ a b : String × String, keyLe a b ∨ keyLe b a := by
  intro a b
  rcases le_total a.1 b.1 with h | h
  · exact Or.inl ((strLeb_iff _ _).mpr h)
  · exact Or.inr ((strLeb_iff _ _).mpr h)

theorem keyLe_trans : ∀ a b c : String × String, keyLe a b → keyLe b c → keyLe a c := by
  intro a b c h1 h2
  exact (strLeb_iff _ _).mpr (le_trans ((strLeb_iff _ _).mp h1) ((strLeb_iff _ _).mp h2))

theorem sortEntries_sorted (r : OutRecord) : List.Sorted keyLe (sortEntries r) := by
  haveI : IsTotal (String × String) keyLe := ⟨keyLe_total⟩
  haveI : IsTrans (String × String) keyLe := ⟨keyLe_trans⟩
  exact List.sorted_insertionSort keyLe r

theorem sortEntries_perm (r : OutRecord) : List.Perm (sortEntries r) r :=
  List.perm_insertionSort keyLe r

theorem transform_data_eq (data : List Record) :
    transform_data data = (data.map normalizeItem).filter (fun r => !r.isEmpty) := by
  induction data with
  | nil => rfl
  | cons i t ih =>
    have hti : transform_response_item i false = some (normalizeItem i) := rfl
    simp only [transform_data, List.map_cons, hti, List.filter_cons, pyTruthy] at ih ⊢
    by_cases h : (normalizeItem i).isEmpty
    · simp [h, ih]
    · simp [h, ih, List.filterMap_cons]

theorem mem_transform_data (data : List Record) (r : OutRecord)
    (hr : r ∈ transform_data data) :
    r ≠ [] ∧ ∃ item ∈ data, r = normalizeItem item := by
  rw [transform_data_eq] at hr
  have h1 := List.mem_filter.mp hr
  obtain ⟨item, hitem, rfl⟩ := List.mem_map.mp h1.1
  refine ⟨?_, item, hitem, rfl⟩
  have h2 := h1.2
  simp only [Bool.not_eq_eq_eq_not, Bool.not_true] at h2
  intro hnil
  rw [hnil] at h2
  simp [List.isEmpty] at h2

/-- C2 (amended): `transform_data` removes exactly the records that are
marked by the skip decision or whose normalized form is empty (no truthy
key): the output is the normalized records filtered to the non-empty ones.
The default skip decision never marks a record (with `skip = false`
`transform_response_item` always returns `some`), so with the default
configuration the records excluded are exactly those whose normalization is
the empty record; every other record appears, normalized, in the output. -/
theorem transform_data_removes_skipped_or_empty (data : List Record) :
    transform_data data = (data.map normalizeItem).filter (fun r => !r.isEmpty)
    ∧ (∀ item : Record, transform_response_item item false = some (normalizeItem item))
    ∧ (∀ item ∈ data, (normalizeItem item).isEmpty = false →
        normalizeItem item ∈ transform_data data)
    ∧ (∀ r ∈ transform_data data, r ≠ [] ∧ ∃ item ∈ data, r = normalizeItem item) := by
  refine ⟨transform_data_eq data, fun item => rfl, ?_, mem_transform_data data⟩
  intro item hitem hne
  rw [transform_data_eq]
  exact List.mem_filter.mpr ⟨List.mem_map.mpr ⟨item, hitem, rfl⟩, by simp [hne]⟩

theorem transform_data_removes_skipped_or_empty_witness :
    ([("name", "5")] : OutRecord) ∈ transform_data [[("", CellValue.s "x"), ("name", CellValue.n 5)]] ∧
    ([("name", "5")] : OutRecord) ≠ [] := by
  have h := transform_data_removes_skipped_or_empty
    [[("", CellValue.s "x"), ("name", CellValue.n 5)]]
  refine ⟨?_, by decide⟩
  have hm := h.2.2.1 [("", CellValue.s "x"), ("name", CellValue.n 5)] (by decide) (by decide)
  exact hm

/-- C2 counterexample: the input record `{"": "x"}` is not marked by the
skip decision (`_transform_response_item` returns a dict, not `None`), yet
`transform_data` removes it from the output: `filter(None, ...)` also drops
the falsy empty dict produced when every key of the record is falsy. -/
theorem transform_data_drops_unskipped_record :
    transform_response_item [("", CellValue.s "x")] false = some []
    ∧ transform_data [[("", CellValue.s "x")]] = [] := by
  exact ⟨rfl, by decide⟩

/-- C3: every record produced by `transform_data` is the normalization of
some input record — only the truthy (non-empty) keys, each mapped to the
string coercion of its value (values are strings by the type `OutRecord`) —
so every key of every output record is non-empty; and the input record
`{"": "x", "name": 5}` transforms to `{"name": "5"}`. -/
theorem transform_data_truthy_keys_string_values (data : List Record) :
    (∀ r ∈ transform_data data,
      (∃ item ∈ data, r = normalizeItem item) ∧ ∀ kv ∈ r, kv.1 ≠ "")
    ∧ (∀ item : Record,
        normalizeItem item = (item.filter (fun kv => kv.1 != "")).map
          (fun kv => (kv.1, unicode kv.2)))
    ∧ transform_data [[("", CellValue.s "x"), ("name", CellValue.n 5)]] = [[("name", "5")]] := by
  refine ⟨?_, fun item => rfl, by decide⟩
  intro r hr
  obtain ⟨-, item, hitem, rfl⟩ := mem_transform_data data r hr
  refine ⟨⟨item, hitem, rfl⟩, ?_⟩
  intro kv hkv
  simp only [normalizeItem, List.mem_map] at hkv
  obtain ⟨kv0, h0, rfl⟩ := hkv
  have h2 := (List.mem_filter.mp h0).2
  simpa [bne_iff_ne] using h2

theorem transform_data_truthy_keys_string_values_witness :
    ((∃ item ∈ ([[("", CellValue.s "x"), ("name", CellValue.n 5)]] : List Record),
        ([("name", "5")] : OutRecord) = normalizeItem item)
      ∧ ∀ kv ∈ ([("name", "5")] : OutRecord), kv.1 ≠ "") := by
  have h := transform_data_truthy_keys_string_values
    [[("", CellValue.s "x"), ("name", CellValue.n 5)]]
  exact h.1 [("name", "5")] (by decide)

/-- C8: `transform_data` is deterministic (equal input datasets give equal
outputs; it is a pure function of its argument, the embedding has no state)
and order-preserving: the output is a sublist of the normalized input
records, so the records not dropped appear in their original relative
order. -/
theorem transform_data_deterministic_order_preserving (d1 d2 : List Record) (h : d1 = d2) :
    transform_data d1 = transform_data d2
    ∧ List.Sublist (transform_data d1) (d1.map normalizeItem) := by
  constructor
  · rw [h]
  · rw [transform_data_eq]
    exact List.filter_sublist _

theorem transform_data_deterministic_order_preserving_witness :
    transform_data [[("a", CellValue.s "1")], [("", CellValue.s "z")], [("b", CellValue.n 2)]]
      = transform_data [[("a", CellValue.s "1")], [("", CellValue.s "z")], [("b", CellValue.n 2)]]
    ∧ List.Sublist
        (transform_data [[("a", CellValue.s "1")], [("", CellValue.s "z")], [("b", CellValue.n 2)]])
        ([[("a", CellValue.s "1")], [("", CellValue.s "z")], [("b", CellValue.n 2)]].map normalizeItem) :=
  transform_data_deterministic_order_preserving _ _ rfl

/-- C9: the byte payload `make_json` returns does not depend on the
`store_locally` flag nor on the prior local file system; with
`store_locally` enabled the configured file is fully overwritten with the
serialized text whatever it held before; and with it disabled the file
system is untouched. -/
theorem make_json_local_write_frame (data : List OutRecord) (fn : String)
    (fs fs2 : FS) (b1 b2 : Bool) :
    (make_json data b1 fn fs).1 = (make_json data b2 fn fs2).1
    ∧ (make_json data b1 fn fs).1 = strBytes (make_json_text data)
    ∧ (make_json data true fn fs).2 fn = some (make_json_text data)
    ∧ (make_json data false fn fs).2 = fs := by
  refine ⟨rfl, rfl, ?_, rfl⟩
  simp [make_json, fsWrite]

/-- C10: `fetch_data`'s result does not depend on its `worksheets_to_skip`
parameter: the multi-sheet filter reads the module-level
`WORKSHEETS_TO_SKIP` configuration constant (`cfg.WORKSHEETS_TO_SKIP`)
instead of the parameter, so any two argument values give the same
dataset. -/
theorem fetch_data_ignores_skip_parameter (cfg : Config) (ss : Spreadsheet)
    (x y : List String) :
    fetch_data cfg ss true x = fetch_data cfg ss true y := rfl

/-- C7: `make_json` returns the UTF-8 encoding of the serialized text; within
each serialized record object the entries are emitted sorted by key in
ascending lexicographic order (a permutation of the record's entries); the
dataset `[{"b":"2","a":"1"}]` serializes with key `"a"` before `"b"`,
pretty-printed with 4-space indentation; and a non-ASCII character is
preserved literally, not escaped. -/
theorem make_json_canonical (data : List OutRecord) (b1 : Bool) (fn : String)
    (fs : FS) (r : OutRecord) :
    (make_json data b1 fn fs).1 = strBytes (make_json_text data)
    ∧ List.Sorted (fun a b : String × String => a.1 ≤ b.1) (sortEntries r)
    ∧ List.Perm (sortEntries r) r
    ∧ make_json_text [[("b", "2"), ("a", "1")]] =
        "[\n    \x7b\n        \"a\": \"1\", \n        \"b\": \"2\"\n    \x7d\n]"
    ∧ make_json_text [[("k", "é")]] = "[\n    \x7b\n        \"k\": \"é\"\n    \x7d\n]" := by
  refine ⟨rfl, ?_, sortEntries_perm r, by decide, by decide⟩
  have hs := sortEntries_sorted r
  exact List.Pairwise.imp (fun h => (strLeb_iff _ _).mp h) hs

theorem fetch_data_multi_sheet_filter (cfg : Config) (ss : Spreadsheet) (x : List String) :
    fetch_data cfg ss true x =
      Except.ok ((ss.worksheets.filter
        (fun sheet => !(cfg.WORKSHEETS_TO_SKIP.contains sheet.title))).flatMap
        Worksheet.records) := rfl

/-- C6: in multi-sheet mode `fetch_data` keeps the worksheets in listing
order, excludes exactly those whose title is in the configured skip-list,
and concatenates the remaining worksheets' rows in that order; for
worksheets `A`, `B`, `C` with skip-list `[B]` the result is `A`'s rows
followed by `C`'s rows. -/
theorem fetch_data_multi_sheet_concat (cfg cfg2 : Config) (ss : Spreadsheet)
    (x : List String) (A B C : Worksheet)
    (hskip : cfg2.WORKSHEETS_TO_SKIP = [B.title])
    (hA : A.title ≠ B.title) (hC : C.title ≠ B.title) :
    fetch_data cfg ss true x =
      Except.ok ((ss.worksheets.filter
        (fun sheet => !(cfg.WORKSHEETS_TO_SKIP.contains sheet.title))).flatMap
        Worksheet.records)
    ∧ fetch_data cfg2 ⟨[A, B, C]⟩ true x = Except.ok (A.records ++ C.records) := by
  refine ⟨rfl, ?_⟩
  rw [fetch_data_multi_sheet_filter]
  simp [hskip, List.contains, hA, hC]


theorem commitBranch_state_shape (cfg : GithubConfig) (env : GhEnv) (data : Bytes)
    (commit : Bool) (st : RepoState) (b : String) :
    (commitBranch cfg env data commit st b).1 = st
    ∨ (commitBranch cfg env data commit st b).1
        = setBranch st b ⟨env.newSha data, data⟩ := by
  unfold commitBranch
  repeat' split
  all_goals simp

theorem commitBranch_err_state (cfg : GithubConfig) (env : GhEnv) (data : Bytes)
    (commit : Bool) (st : RepoState) (b : String) (e : String)
    (he : (commitBranch cfg env data commit st b).2.2 = some e) :
    (commitBranch cfg env data commit st b).1 = st := by
  unfold commitBranch at he ⊢
  repeat' split at he <;> repeat' split
  all_goals simp_all

theorem commitBranches_state_shape (cfg : GithubConfig) (env : GhEnv) (data : Bytes)
    (commit : Bool) (bs : List String) (st : RepoState) (x : String) :
    (commitBranches cfg env data commit bs st).1 x = st x
    ∨ (commitBranches cfg env data commit bs st).1 x
        = some ⟨env.newSha data, data⟩ := by
  induction bs generalizing st with
  | nil => exact Or.inl rfl
  | cons b rest ih =>
    rcases hcb : commitBranch cfg env data commit st b with ⟨stA, cA, errA⟩
    have hshape : stA x = st x ∨ stA x = some ⟨env.newSha data, data⟩ := by
      rcases commitBranch_state_shape cfg env data commit st b with h | h <;> rw [hcb] at h
      · exact Or.inl (congrFun h x)
      · have h2 : stA x = setBranch st b ⟨env.newSha data, data⟩ x := congrFun h x
        rcases eq_or_ne x b with rfl | hxb
        · exact Or.inr (by rw [h2]; simp [setBranch])
        · exact Or.inl (by rw [h2]; simp [setBranch, hxb])
    simp only [commitBranches, hcb]
    cases errA with
    | some e => exact hshape
    | none =>
      rcases ih stA with h | h
      · rcases hshape with h2 | h2
        · exact Or.inl (h.trans h2)
        · exact Or.inr (h.trans h2)
      · exact Or.inr h

theorem commitBranches_append_ok (cfg : GithubConfig) (env : GhEnv) (data : Bytes)
    (commit : Bool) (l1 l2 : List String) (st s1 : RepoState) (c1 : List GhCall)
    (h : commitBranches cfg env data commit l1 st = (s1, c1, none)) :
    commitBranches cfg env data commit (l1 ++ l2) st
      = ((commitBranches cfg env data commit l2 s1).1,
         c1 ++ (commitBranches cfg env data commit l2 s1).2.1,
         (commitBranches cfg env data commit l2 s1).2.2) := by
  induction l1 generalizing st c1 with
  | nil =>
    obtain ⟨rfl, rfl, -⟩ : st = s1 ∧ ([] : List GhCall) = c1 ∧ (none : Option String) = none := by
      simpa [commitBranches] using h
    simp [commitBranches]
  | cons b rest ih =>
    simp only [commitBranches, List.cons_append] at h ⊢
    rcases hcb : commitBranch cfg env data commit st b with ⟨stA, cA, errA⟩
    simp only [hcb] at h
    cases errA with
    | some e => simp at h
    | none =>
      replace h : ((commitBranches cfg env data commit rest stA).1,
          cA ++ (commitBranches cfg env data commit rest stA).2.1,
          (commitBranches cfg env data commit rest stA).2.2) = (s1, c1, none) := h
      rcases hrest : commitBranches cfg env data commit rest stA with ⟨s2, c2, e2⟩
      rw [hrest] at h
      obtain ⟨rfl, rfl, he2⟩ : s2 = s1 ∧ cA ++ c2 = c1 ∧ e2 = none := by simpa using h
      subst he2
      have hi := ih stA c2 hrest
      show ((commitBranches cfg env data commit (rest ++ l2) stA).1,
            cA ++ (commitBranches cfg env data commit (rest ++ l2) stA).2.1,
            (commitBranches cfg env data commit (rest ++ l2) stA).2.2)
          = ((commitBranches cfg env data commit l2 s2).1,
             (cA ++ c2) ++ (commitBranches cfg env data commit l2 s2).2.1,
             (commitBranches cfg env data commit l2 s2).2.2)
      rw [hi]
      simp

theorem commitBranch_absent (cfg : GithubConfig) (env : GhEnv) (data : Bytes)
    (st : RepoState) (b : String) (hok : ∀ c, env.ok c = true)
    (hsb : st b = none) :
    commitBranch cfg env data true st b
      = (setBranch st b ⟨env.newSha data, data⟩,
         [GhCall.look b cfg.TARGET_FILE, GhCall.create b cfg.TARGET_FILE data], none) := by
  simp [commitBranch, hok, hsb]

theorem commitBranch_same (cfg : GithubConfig) (env : GhEnv) (data : Bytes)
    (st : RepoState) (b : String) (f : RemoteFile) (s : String)
    (hok : ∀ c, env.ok c = true) (hsb : st b = some f)
    (hs : utf8Decode data = some s) (hf : utf8Decode f.decoded = some s) :
    commitBranch cfg env data true st b = (st, [GhCall.look b cfg.TARGET_FILE], none) := by
  simp [commitBranch, hok, hsb, hs, hf]

theorem commitBranch_differs (cfg : GithubConfig) (env : GhEnv) (data : Bytes)
    (st : RepoState) (b : String) (f : RemoteFile) (s t : String)
    (hok : ∀ c, env.ok c = true) (hsb : st b = some f)
    (hs : utf8Decode data = some s) (hf : utf8Decode f.decoded = some t)
    (hne : s ≠ t) :
    commitBranch cfg env data true st b
      = (setBranch st b ⟨env.newSha data, data⟩,
         [GhCall.look b cfg.TARGET_FILE,
          GhCall.update b cfg.TARGET_FILE data f.sha], none) := by
  simp [commitBranch, hok, hsb, hs, hf, hne]

theorem commitBranch_decode_error (cfg : GithubConfig) (env : GhEnv) (data : Bytes)
    (st : RepoState) (b : String) (f : RemoteFile)
    (hok : ∀ c, env.ok c = true) (hsb : st b = some f)
    (hnd : utf8Decode data = none ∨ utf8Decode f.decoded = none) :
    commitBranch cfg env data true st b
      = (st, [GhCall.look b cfg.TARGET_FILE], some "UnicodeDecodeError") := by
  rcases hnd with hnd | hnd
  · simp [commitBranch, hok, hsb, hnd]
  · rcases hd : utf8Decode data with _ | s <;> simp [commitBranch, hok, hsb, hnd, hd]

theorem commitBranch_ok_post (cfg : GithubConfig) (env : GhEnv) (data : Bytes)
    (st : RepoState) (b : String) (stA : RepoState) (cA : List GhCall)
    (hok : ∀ c, env.ok c = true)
    (hcb : commitBranch cfg env data true st b = (stA, cA, none)) :
    ∃ f, stA b = some f ∧ utf8Decode f.decoded = utf8Decode data := by
  rcases hsb : st b with _ | f
  · rw [commitBranch_absent cfg env data st b hok hsb] at hcb
    have hst : setBranch st b ⟨env.newSha data, data⟩ = stA := congrArg Prod.fst hcb
    refine ⟨⟨env.newSha data, data⟩, ?_, rfl⟩
    rw [← hst]; simp [setBranch]
  · rcases hd : utf8Decode data with _ | s
    · rw [commitBranch_decode_error cfg env data st b f hok hsb (Or.inl hd)] at hcb
      exact absurd (congrArg (fun p => p.2.2) hcb) (by simp)
    · rcases hf : utf8Decode f.decoded with _ | t
      · rw [commitBranch_decode_error cfg env data st b f hok hsb (Or.inr hf)] at hcb
        exact absurd (congrArg (fun p => p.2.2) hcb) (by simp)
      · by_cases he : s = t
        · subst he
          rw [commitBranch_same cfg env data st b f s hok hsb hd hf] at hcb
          have hst : st = stA := congrArg Prod.fst hcb
          exact ⟨f, by rw [← hst]; exact hsb, hf⟩
        · rw [commitBranch_differs cfg env data st b f s t hok hsb hd hf he] at hcb
          have hst : setBranch st b ⟨env.newSha data, data⟩ = stA := congrArg Prod.fst hcb
          refine ⟨⟨env.newSha data, data⟩, ?_, hd⟩
          rw [← hst]; simp [setBranch]

theorem commitBranches_ok_post (cfg : GithubConfig) (env : GhEnv) (data : Bytes)
    (bs : List String) (st s1 : RepoState) (c1 : List GhCall)
    (hok : ∀ c, env.ok c = true)
    (h : commitBranches cfg env data true bs st = (s1, c1, none)) :
    ∀ b ∈ bs, ∃ f, s1 b = some f ∧ utf8Decode f.decoded = utf8Decode data := by
  induction bs generalizing st c1 with
  | nil => simp
  | cons b rest ih =>
    simp only [commitBranches] at h
    rcases hcb : commitBranch cfg env data true st b with ⟨stA, cA, errA⟩
    simp only [hcb] at h
    cases errA with
    | some e => simp at h
    | none =>
      replace h : ((commitBranches cfg env data true rest stA).1,
          cA ++ (commitBranches cfg env data true rest stA).2.1,
          (commitBranches cfg env data true rest stA).2.2) = (s1, c1, none) := h
      rcases hrest : commitBranches cfg env data true rest stA with ⟨s2, c2, e2⟩
      rw [hrest] at h
      obtain ⟨rfl, rfl, he2⟩ : s2 = s1 ∧ cA ++ c2 = c1 ∧ e2 = none := by simpa using h
      subst he2
      intro x hx
      rcases List.mem_cons.mp hx with rfl | hx2
      · obtain ⟨f, hfb, hdec⟩ := commitBranch_ok_post cfg env data st x stA cA hok hcb
        have hsh := commitBranches_state_shape cfg env data true rest stA x
        rw [hrest] at hsh
        rcases hsh with h3 | h3
        · exact ⟨f, h3.trans hfb, hdec⟩
        · exact ⟨⟨env.newSha data, data⟩, h3, rfl⟩
      · exact ih stA c2 hrest x hx2

theorem commitBranches_noop (cfg : GithubConfig) (env : GhEnv) (data : Bytes)
    (bs : List String) (st : RepoState) (s : String)
    (hok : ∀ c, env.ok c = true) (hs : utf8Decode data = some s)
    (hP : ∀ b ∈ bs, ∃ f, st b = some f ∧ utf8Decode f.decoded = utf8Decode data) :
    commitBranches cfg env data true bs st
      = (st, bs.map (fun b => GhCall.look b cfg.TARGET_FILE), none) := by
  induction bs with
  | nil => rfl
  | cons b rest ih =>
    obtain ⟨f, hsb, hdec⟩ := hP b (List.mem_cons_self b rest)
    have hf : utf8Decode f.decoded = some s := hdec.trans hs
    have hcb := commitBranch_same cfg env data st b f s hok hsb hs hf
    simp only [commitBranches, hcb, List.map_cons]
    rw [ih (fun x hx => hP x (List.mem_cons_of_mem b hx))]
    simp

theorem commitBranches_dry (cfg : GithubConfig) (env : GhEnv) (data : Bytes)
    (bs : List String) (st : RepoState) :
    (commitBranches cfg env data false bs st).1 = st
    ∧ (∀ c ∈ (commitBranches cfg env data false bs st).2.1, c.isLook = true)
    ∧ ((∀ c, env.ok c = true) →
        commitBranches cfg env data false bs st
          = (st, bs.map (fun b => GhCall.look b cfg.TARGET_FILE), none)) := by
  induction bs with
  | nil => exact ⟨rfl, by simp [commitBranches], fun _ => rfl⟩
  | cons b rest ih =>
    by_cases hl : env.ok (GhCall.look b cfg.TARGET_FILE) = true
    · have hcb : commitBranch cfg env data false st b
          = (st, [GhCall.look b cfg.TARGET_FILE], none) := by
        simp [commitBranch, hl]
      simp only [commitBranches, hcb, List.map_cons]
      refine ⟨ih.1, ?_, ?_⟩
      · intro c hc
        rcases List.mem_append.mp hc with hc | hc
        · simp only [List.mem_singleton] at hc
          subst hc; rfl
        · exact ih.2.1 c hc
      · intro henv
        rw [ih.2.2 henv]
        simp
    · have hcb : commitBranch cfg env data false st b
          = (st, [GhCall.look b cfg.TARGET_FILE], some "lookup raised") := by
        simp [commitBranch, hl]
      simp only [commitBranches, hcb]
      refine ⟨by simp, ?_, ?_⟩
      · intro c hc
        simp only [List.mem_singleton] at hc
        subst hc; rfl
      · intro henv
        exact absurd (henv (GhCall.look b cfg.TARGET_FILE)) hl

/-- C1: with commit enabled and no call failing, `commit_json` ensures the
remote file's content equals the payload on every target branch: an absent
file is created with the payload; a present file whose decoded content
equals the payload decoded as text triggers no create or update call; a
present file whose decoded content differs is updated with the payload
using the looked-up file's sha as precondition; after a successful run
every target branch holds content decoding to the payload's text, so a
second run issues only lookups and no write — running the pipeline twice on
unchanged data produces exactly one commit. -/
theorem commit_json_ensures_payload (cfg : GithubConfig) (env : GhEnv)
    (data : Bytes) (st : RepoState) (s : String)
    (hok : ∀ c, env.ok c = true) (hs : utf8Decode data = some s) :
    (∀ b, st b = none → commitBranch cfg env data true st b
        = (setBranch st b ⟨env.newSha data, data⟩,
           [GhCall.look b cfg.TARGET_FILE, GhCall.create b cfg.TARGET_FILE data], none))
    ∧ (∀ b f, st b = some f → utf8Decode f.decoded = utf8Decode data →
        commitBranch cfg env data true st b = (st, [GhCall.look b cfg.TARGET_FILE], none))
    ∧ (∀ b f t, st b = some f → utf8Decode f.decoded = some t → s ≠ t →
        commitBranch cfg env data true st b
          = (setBranch st b ⟨env.newSha data, data⟩,
             [GhCall.look b cfg.TARGET_FILE,
              GhCall.update b cfg.TARGET_FILE data f.sha], none))
    ∧ (∀ s1 c1, commit_json cfg env data true st = (s1, c1, none) →
        (∀ b ∈ cfg.TARGET_BRANCHES,
          ∃ f, s1 b = some f ∧ utf8Decode f.decoded = utf8Decode data)
        ∧ commit_json cfg env data true s1
            = (s1, cfg.TARGET_BRANCHES.map (fun b => GhCall.look b cfg.TARGET_FILE), none)) := by
  refine ⟨fun b hsb => commitBranch_absent cfg env data st b hok hsb, ?_, ?_, ?_⟩
  · intro b f hsb hdec
    exact commitBranch_same cfg env data st b f s hok hsb hs (hdec.trans hs)
  · intro b f t hsb hf hne
    exact commitBranch_differs cfg env data st b f s t hok hsb hs hf hne
  · intro s1 c1 h
    have hpost := commitBranches_ok_post cfg env data cfg.TARGET_BRANCHES st s1 c1 hok h
    exact ⟨hpost, commitBranches_noop cfg env data cfg.TARGET_BRANCHES s1 s hok hs hpost⟩

theorem commit_json_ensures_payload_witness :
    commitBranch ⟨"data.json", ["gh-pages"]⟩ ⟨fun _ => true, fun _ => "sha0"⟩ [104] true
        (fun _ => none) "gh-pages"
      = (setBranch (fun _ => none) "gh-pages" ⟨"sha0", [104]⟩,
         [GhCall.look "gh-pages" "data.json", GhCall.create "gh-pages" "data.json" [104]],
         none) :=
  (commit_json_ensures_payload ⟨"data.json", ["gh-pages"]⟩ ⟨fun _ => true, fun _ => "sha0"⟩
    [104] (fun _ => none) "h" (fun _ => rfl) (by decide)).1 "gh-pages" rfl

/-- C4: with the commit flag disabled, `commit_json` leaves the remote state
unchanged and every call in its trace is a read-only contents lookup; when
no call fails it performs exactly one lookup per configured branch, in
order, and raises nothing. -/
theorem commit_json_dry_run (cfg : GithubConfig) (env : GhEnv) (data : Bytes)
    (st : RepoState) :
    (commit_json cfg env data false st).1 = st
    ∧ (∀ c ∈ (commit_json cfg env data false st).2.1, c.isLook = true)
    ∧ ((∀ c, env.ok c = true) →
        commit_json cfg env data false st
          = (st, cfg.TARGET_BRANCHES.map (fun b => GhCall.look b cfg.TARGET_FILE), none)) :=
  commitBranches_dry cfg env data cfg.TARGET_BRANCHES st

theorem commit_json_dry_run_witness :
    commit_json ⟨"data.json", ["b1", "b2"]⟩ ⟨fun _ => true, fun _ => "s"⟩ [104] false
        (fun _ => none)
      = ((fun _ => none),
         [GhCall.look "b1" "data.json", GhCall.look "b2" "data.json"], none) :=
  (commit_json_dry_run ⟨"data.json", ["b1", "b2"]⟩ ⟨fun _ => true, fun _ => "s"⟩ [104]
    (fun _ => none)).2.2 (fun _ => rfl)

/-- C5 (amended): the configured target branches are processed sequentially
in listing order; a failure while processing one branch propagates as an
error and does not roll back writes already made to earlier branches — the
final state is the state reached before the failing branch, which itself
writes nothing — but it aborts the loop, so no call at all is made for the
branches after the failing one. -/
theorem commit_json_branch_failure (cfg : GithubConfig) (env : GhEnv) (data : Bytes)
    (commit : Bool) (st s1 : RepoState) (pre rest : List String) (b : String)
    (c1 : List GhCall) (e : String)
    (hbr : cfg.TARGET_BRANCHES = pre ++ b :: rest)
    (hpre : commitBranches cfg env data commit pre st = (s1, c1, none))
    (hb : (commitBranch cfg env data commit s1 b).2.2 = some e) :
    commit_json cfg env data commit st
      = (s1, c1 ++ (commitBranch cfg env data commit s1 b).2.1, some e)
    ∧ (commitBranch cfg env data commit s1 b).1 = s1 := by
  have hstate := commitBranch_err_state cfg env data commit s1 b e hb
  refine ⟨?_, hstate⟩
  unfold commit_json
  rw [hbr, commitBranches_append_ok cfg env data commit pre (b :: rest) st s1 c1 hpre]
  have hbr2 : commitBranches cfg env data commit (b :: rest) s1
      = ((commitBranch cfg env data commit s1 b).1,
         (commitBranch cfg env data commit s1 b).2.1, some e) := by
    rcases hcb : commitBranch cfg env data commit s1 b with ⟨stB, cB, eB⟩
    have heB : eB = some e := by rw [hcb] at hb; exact hb
    subst heB
    simp only [commitBranches, hcb]
  rw [hbr2, hstate]

theorem commit_json_branch_failure_witness :
    commit_json ⟨"data.json", ["b1", "b2"]⟩
        ⟨fun c => match c with | GhCall.update _ _ _ _ => false | _ => true, fun _ => "sha2"⟩
        [98] true (fun b => if b = "b1" then some ⟨"s1", [97]⟩ else none)
      = ((fun b => if b = "b1" then some ⟨"s1", [97]⟩ else none),
         [] ++ (commitBranch ⟨"data.json", ["b1", "b2"]⟩
            ⟨fun c => match c with | GhCall.update _ _ _ _ => false | _ => true, fun _ => "sha2"⟩
            [98] true (fun b => if b = "b1" then some ⟨"s1", [97]⟩ else none) "b1").2.1,
         some "update raised")
    ∧ (commitBranch ⟨"data.json", ["b1", "b2"]⟩
        ⟨fun c => match c with | GhCall.update _ _ _ _ => false | _ => true, fun _ => "sha2"⟩
        [98] true (fun b => if b = "b1" then some ⟨"s1", [97]⟩ else none) "b1").1
      = (fun b => if b = "b1" then some ⟨"s1", [97]⟩ else none) :=
  commit_json_branch_failure ⟨"data.json", ["b1", "b2"]⟩
    ⟨fun c => match c with | GhCall.update _ _ _ _ => false | _ => true, fun _ => "sha2"⟩
    [98] true _ _ [] ["b2"] "b1" [] "update raised" rfl rfl (by decide)

/-- C5 counterexample: with two configured branches and an environment where
the update call on the first branch fails (a stale sha precondition), the
trace of `commit_json` holds only the first branch's lookup and update and
the error propagates: branch "b2" is never processed — not even its lookup
is issued — so a failure on one branch does block the processing of the
remaining configured branches. -/
theorem commit_json_failure_blocks_next_branch :
    (commit_json ⟨"data.json", ["b1", "b2"]⟩
        ⟨fun c => match c with | GhCall.update _ _ _ _ => false | _ => true, fun _ => "sha2"⟩
        [98] true (fun b => if b = "b1" then some ⟨"s1", [97]⟩ else none)).2.1
      = [GhCall.look "b1" "data.json", GhCall.update "b1" "data.json" [98] "s1"]
    ∧ (commit_json ⟨"data.json", ["b1", "b2"]⟩
        ⟨fun c => match c with | GhCall.update _ _ _ _ => false | _ => true, fun _ => "sha2"⟩
        [98] true (fun b => if b = "b1" then some ⟨"s1", [97]⟩ else none)).2.2
      = some "update raised" := by
  exact ⟨by decide, by decide⟩

theorem fetch_data_multi_sheet_concat_witness :
    fetch_data ⟨"", ["B"]⟩
        ⟨[⟨"A", [[("a", CellValue.s "1")]]⟩, ⟨"B", [[("b", CellValue.s "2")]]⟩,
          ⟨"C", [[("c", CellValue.s "3")]]⟩]⟩ true []
      = Except.ok ((Worksheet.mk "A" [[("a", CellValue.s "1")]]).records
          ++ (Worksheet.mk "C" [[("c", CellValue.s "3")]]).records) :=
  (fetch_data_multi_sheet_concat ⟨"", ["B"]⟩ ⟨"", ["B"]⟩
    ⟨[⟨"A", [[("a", CellValue.s "1")]]⟩, ⟨"B", [[("b", CellValue.s "2")]]⟩,
      ⟨"C", [[("c", CellValue.s "3")]]⟩]⟩ []
    ⟨"A", [[("a", CellValue.s "1")]]⟩ ⟨"B", [[("b", CellValue.s "2")]]⟩
    ⟨"C", [[("c", CellValue.s "3")]]⟩ rfl (by decide) (by decide)).2
